import Mathlib

/-!
Shallow embedding of the readlnrs line-editing crate (src/lib.rs, src/unix.rs).

Rust strings are modelled as lists of bytes (`List Nat`, values < 256), cursor
positions as byte offsets (`Nat`).  Fallible operations (`String::insert`,
`String::remove`, `String::replace_range`, string slicing — all of which panic
on non-char-boundary indices in Rust) return `Option`.  The Unix key decoder is
modelled over an explicit byte stream (`List Nat`); a blocked read (stream
exhausted) is `none`.
-/

namespace Readln

/-- The `Key` enum from src/lib.rs (lines 15-28).  `Char` carries the Unicode
code point of the character (the Unix decoder produces `ch as char` for a byte
`ch`, i.e. code points 0..255). -/
inductive Key where
  | NA
  | Char (c : Nat)
  | Enter
  | Backspace
  | ArrowUp
  | ArrowDown
  | ArrowRight
  | ArrowLeft
  | CtrlBackspace
  | CtrlArrowRight
  | CtrlArrowLeft
deriving DecidableEq, Repr

/-- Whether a byte is a UTF-8 continuation byte (0x80..0xBF). -/
def isContByte (b : Nat) : Bool :=
  128 ≤ b && b < 192

/-- Rust's `str::is_char_boundary` on a byte list: true at the length, and at
any index holding a non-continuation byte; false past the end. -/
def isCharBoundary (l : List Nat) (p : Nat) : Bool :=
  p == l.length || (decide (p < l.length) && !isContByte (l.getD p 0))

/-- UTF-8 encoding of a code point (Rust `char::encode_utf8`). -/
def utf8Encode (c : Nat) : List Nat :=
  if c < 128 then [c]
  else if c < 2048 then [192 + c / 64, 128 + c % 64]
  else if c < 65536 then [224 + c / 4096, 128 + c / 64 % 64, 128 + c % 64]
  else [240 + c / 262144, 128 + c / 4096 % 64, 128 + c / 64 % 64, 128 + c % 64]

/-- Byte length of the UTF-8 unit starting at a lead byte. -/
def utf8LenOfLead (b : Nat) : Nat :=
  if b < 128 then 1 else if b < 224 then 2 else if b < 240 then 3 else 4

/-- Rust `String::insert(p, c)`: panics unless `p` is a char boundary;
splices the UTF-8 encoding of `c` at byte offset `p`. -/
def stringInsert (l : List Nat) (p c : Nat) : Option (List Nat) :=
  if isCharBoundary l p then some (l.take p ++ utf8Encode c ++ l.drop p) else none

/-- Rust `String::remove(i)`: panics unless `i` is a char boundary below the
length; removes the UTF-8 unit starting at byte offset `i`. -/
def stringRemove (l : List Nat) (i : Nat) : Option (List Nat) :=
  if isCharBoundary l i && decide (i < l.length) then
    some (l.take i ++ l.drop (i + utf8LenOfLead (l.getD i 0)))
  else none

/-- Rust `String::replace_range(i..j, "")`: panics unless `i ≤ j` and both ends
are char boundaries; removes the bytes in `[i, j)`. -/
def replaceRangeEmpty (l : List Nat) (i j : Nat) : Option (List Nat) :=
  if isCharBoundary l i && isCharBoundary l j && decide (i ≤ j) then
    some (l.take i ++ l.drop j)
  else none

/-- Rust `slice::iter().rposition(|c| c == &b' ')`: index of the last
space byte (32) in the list, if any. -/
def lastSpaceIdx : List Nat → Option Nat
  | [] => none
  | b :: rest =>
    match lastSpaceIdx rest with
    | some i => some (i + 1)
    | none => if b = 32 then some 0 else none

/-- One iteration bound for the `Key::CtrlArrowRight` while loop of `readch`
(src/lib.rs lines 264-272): while `p < len`, increment `p`, stop when the byte
at the new `p` is a space.  `fuel` is structural; `advanceWordRight` supplies
enough fuel for the loop to run to completion. -/
def advanceLoop : Nat → List Nat → Nat → Nat
  | 0, _, p => p
  | fuel + 1, bytes, p =>
    if p < bytes.length then
      if bytes[p + 1]? == some 32 then p + 1 else advanceLoop fuel bytes (p + 1)
    else p

/-- The cursor position produced by the `Key::CtrlArrowRight` arm of `readch`. -/
def advanceWordRight (bytes : List Nat) (p : Nat) : Nat :=
  advanceLoop bytes.length bytes p

/-- The editing behaviour of `readch` (src/lib.rs lines 235-276) with the
already-decoded key passed in place of the `read_key()` call: applies the key
to buffer and cursor, returning the updated pair (`none` models a Rust panic
from a non-char-boundary index). -/
def readch (buf : List Nat) (pos : Nat) : Key → Option (List Nat × Nat)
  | .Char c => (stringInsert buf pos c).map (fun b => (b, pos + 1))
  | .Backspace =>
    if 0 < pos then (stringRemove buf (pos - 1)).map (fun b => (b, pos - 1))
    else some (buf, pos)
  | .ArrowLeft => some (buf, pos - 1)
  | .ArrowRight => some (buf, if pos < buf.length then pos + 1 else pos)
  | .CtrlBackspace =>
    if isCharBoundary buf pos then
      let idx := (lastSpaceIdx (buf.take pos)).getD 0
      (replaceRangeEmpty buf idx pos).map (fun b => (b, idx))
    else none
  | .CtrlArrowLeft =>
    if isCharBoundary buf pos then
      some (buf, (lastSpaceIdx (buf.take pos)).getD 0)
    else none
  | .CtrlArrowRight => some (buf, advanceWordRight buf pos)
  | _ => some (buf, pos)

/-! ## The Unix key decoder (src/unix.rs) -/

/-- `ESC_SEQ_LIST` from src/unix.rs (lines 36-53): escape sequences as byte
lists paired with their keys, in declaration order.
Bytes: 91 is the opening square bracket, 67 is C, 68 is D, 49 is 1, 59 is
the semicolon, 53 is 5. -/
def ESC_SEQ_LIST : List (Key × List Nat) :=
  [(.ArrowRight, [91, 67]),
   (.ArrowLeft, [91, 68]),
   (.CtrlArrowRight, [91, 49, 59, 53, 67]),
   (.CtrlArrowLeft, [91, 49, 59, 53, 68])]

/-- `ESC_SEQ_LEN` from src/unix.rs (line 35): the number of table entries. -/
def ESC_SEQ_LEN : Nat := 4

/-- The inner `for` loop of `read_key` at position `pos` with byte `ch`:
skip a sequence whose length equals `pos`; a sequence wins when its byte at
`pos` equals `ch` and `pos` is its last index.  First match in table order. -/
def findEsc (pos ch : Nat) : Option Key :=
  (ESC_SEQ_LIST.find? fun e =>
    decide (pos ≠ e.2.length) && (e.2[pos]? == some ch) &&
      decide (e.2.length - 1 = pos)).map Prod.fst

/-- The `while pos < ESC_SEQ_LEN + 1` loop of `read_key` (src/unix.rs lines
15-30), consuming bytes from the stream.  `fuel` is `ESC_SEQ_LEN + 1 - pos`;
when it reaches 0 the loop exits.  The source returns `Key::Special` on exit,
a variant absent from the `Key` enum in src/lib.rs, whose catch-all no-op
variant is `NA`; the exit result is therefore modelled as `NA`.  Returns the
key and the unconsumed remainder of the stream; `none` means the stream ran
out (a blocked read). -/
def escLoop : Nat → Nat → List Nat → Option (Key × List Nat)
  | 0, _, s => some (.NA, s)
  | fuel + 1, pos, s =>
    match s with
    | [] => none
    | ch :: rest =>
      match findEsc pos ch with
      | some k => some (k, rest)
      | none => escLoop fuel (pos + 1) rest

/-- `read_key` from src/unix.rs (lines 5-33) over an explicit byte stream:
byte 27 enters the escape loop, 10 is Enter, 127 is Backspace, anything else
is `Char(ch as char)`.  Returns the key and the unconsumed rest of the
stream. -/
def read_key : List Nat → Option (Key × List Nat)
  | [] => none
  | ch :: rest =>
    if ch = 27 then escLoop (ESC_SEQ_LEN + 1) 0 rest
    else if ch = 10 then some (.Enter, rest)
    else if ch = 127 then some (.Backspace, rest)
    else some (.Char ch, rest)

/-! ## The `pushln` history loop (src/lib.rs lines 80-124) -/

/-- Which buffer the `buf` reference of `pushln` points at: the fresh
`new_buf`, or an element of `local_history`. -/
inductive BufRef where
  | newB
  | localB (i : Nat)
deriving DecidableEq, Repr

/-- The local state of one `pushln` call: the fresh buffer `new_buf`, the
shadow copies `local_history`, the cursor `pos`, the recall cursor `hpos`,
and which buffer `buf` currently points at. -/
structure PushSt where
  newBuf : List Nat
  localHistory : List (List Nat)
  pos : Nat
  hpos : Nat
  active : BufRef
deriving DecidableEq, Repr

/-- The buffer the `buf` reference currently denotes. -/
def getBuf (st : PushSt) : List Nat :=
  match st.active with
  | .newB => st.newBuf
  | .localB i => st.localHistory.getD i []

/-- Write back an edited value through the `buf` reference. -/
def writeActive (st : PushSt) (b : List Nat) : PushSt :=
  match st.active with
  | .newB => { st with newBuf := b }
  | .localB i => { st with localHistory := st.localHistory.set i b }

/-- The modulus of `usize` arithmetic. -/
def USIZE : Nat := 2 ^ 64

/-- Rust `usize::wrapping_sub`. -/
def wrapSub (a b : Nat) : Nat :=
  (a % USIZE + USIZE - b % USIZE) % USIZE

/-- The buffer re-selection after a history key (src/lib.rs lines 102-113):
compute `local_pos = last_history_idx.wrapping_sub(hpos)`, reuse an existing
shadow copy, else clone `history[hpos]` into `local_history` (indexing
`local_history[local_pos]` right after the push panics — `none` — unless the
push landed there), else fall back to `new_buf`; finally `pos = buf.len()`. -/
def rederive (history : List (List Nat)) (st : PushSt) (hpos' : Nat) :
    Option PushSt :=
  let lastIdx := history.length - 1
  let localPos := wrapSub lastIdx hpos'
  if localPos < st.localHistory.length then
    some { st with hpos := hpos', active := .localB localPos,
                   pos := (st.localHistory.getD localPos []).length }
  else
    match history[hpos']? with
    | some item =>
      if localPos = st.localHistory.length then
        some { st with hpos := hpos',
                       localHistory := st.localHistory ++ [item],
                       active := .localB localPos, pos := item.length }
      else none
    | none =>
      some { st with hpos := hpos', active := .newB,
                     pos := st.newBuf.length }

/-- One iteration of the `pushln` loop body on an already-decoded key: run the
`readch` editing step on the active buffer, then the `match` on the key
(src/lib.rs lines 91-113).  The Bool is true when the loop breaks (Enter). -/
def stepKey (history : List (List Nat)) (st : PushSt) (k : Key) :
    Option (PushSt × Bool) :=
  match readch (getBuf st) st.pos k with
  | none => none
  | some (b, p) =>
    let st1 := { writeActive st b with pos := p }
    match k with
    | .Enter => some (st1, true)
    | .ArrowUp => (rederive history st1 (st1.hpos - 1)).map (fun s => (s, false))
    | .ArrowDown =>
      (rederive history st1
        (if st1.hpos < history.length then st1.hpos + 1 else st1.hpos)).map
        (fun s => (s, false))
    | _ => some (st1, false)

/-- The initial `pushln` state (src/lib.rs lines 81-86): empty fresh buffer,
no shadow copies, cursor 0, `hpos = history.len()`, `buf = &mut new_buf`. -/
def initSt (history : List (List Nat)) : PushSt :=
  ⟨[], [], 0, history.length, .newB⟩

/-- The `pushln` loop over a list of decoded keys: returns the state at the
`break` (Enter); `none` if the keys run out first (the real loop would block)
or an editing step panics. -/
def pushlnLoop (history : List (List Nat)) (st : PushSt) :
    List Key → Option PushSt
  | [] => none
  | k :: ks =>
    match stepKey history st k with
    | none => none
    | some (st1, true) => some st1
    | some (st1, false) => pushlnLoop history st1 ks

/-- `pushln` (src/lib.rs lines 80-124) over a list of decoded keys: run the
loop; on break, an empty active buffer yields the empty result and an
unchanged history, otherwise the active buffer is cloned and appended to the
history and returned. -/
def pushln (history : List (List Nat)) (keys : List Key) :
    Option (List (List Nat) × List Nat) :=
  match pushlnLoop history (initSt history) keys with
  | none => none
  | some st =>
    let b := getBuf st
    if b = [] then some (history, []) else some (history ++ [b], b)

/-- Bytes of every byte-list element are below 128 (pure single-byte ASCII). -/
def allAscii (l : List Nat) : Bool :=
  l.all fun b => decide (b < 128)

/-- A key whose inserted character (if any) is single-byte. -/
def keyAscii : Key → Bool
  | .Char c => decide (c < 128)
  | _ => true

/-! ## Helper lemmas -/

theorem isCharBoundary_le {l : List Nat} {p : Nat}
    (h : isCharBoundary l p = true) : p ≤ l.length := by
  simp only [isCharBoundary, Bool.or_eq_true, beq_iff_eq, Bool.and_eq_true,
    decide_eq_true_eq] at h
  rcases h with h | h
  · omega
  · omega

theorem allAscii_iff {l : List Nat} : allAscii l = true ↔ ∀ b ∈ l, b < 128 := by
  simp [allAscii]

theorem ascii_isCharBoundary {l : List Nat} {p : Nat}
    (ha : allAscii l = true) (hp : p ≤ l.length) : isCharBoundary l p = true := by
  rcases Nat.eq_or_lt_of_le hp with h | h
  · simp [isCharBoundary, h]
  · have hb : l.getD p 0 ∈ l := by
      rw [List.getD_eq_getElem l 0 h]
      exact List.getElem_mem h
    have hlt : l[p] < 128 := by
      rw [← List.getD_eq_getElem l 0 h]
      exact allAscii_iff.mp ha _ hb
    simp [isCharBoundary, h, isContByte]
    omega

theorem getD_take {l : List Nat} {p j : Nat} (h : j < p) :
    (l.take p).getD j 0 = l.getD j 0 := by
  simp [List.getD, List.getElem?_take, h]

theorem lastSpaceIdx_none {l : List Nat} (h : lastSpaceIdx l = none) :
    ∀ j, j < l.length → l.getD j 0 ≠ 32 := by
  induction l with
  | nil => intro j hj; simp at hj
  | cons b rest ih =>
    rw [lastSpaceIdx] at h
    cases hr : lastSpaceIdx rest with
    | some i => rw [hr] at h; simp at h
    | none =>
      rw [hr] at h
      have hb : b ≠ 32 := by
        by_contra hb
        rw [if_pos hb] at h
        simp at h
      intro j hj
      cases j with
      | zero => simpa using hb
      | succ j0 =>
        rw [List.getD_cons_succ]
        exact ih hr j0 (by simpa using hj)

theorem lastSpaceIdx_some {l : List Nat} {i : Nat} (h : lastSpaceIdx l = some i) :
    i < l.length ∧ l.getD i 0 = 32 ∧
      ∀ j, i < j → j < l.length → l.getD j 0 ≠ 32 := by
  induction l generalizing i with
  | nil => simp [lastSpaceIdx] at h
  | cons b rest ih =>
    rw [lastSpaceIdx] at h
    cases hr : lastSpaceIdx rest with
    | some i0 =>
      rw [hr] at h
      simp at h
      subst h
      obtain ⟨h1, h2, h3⟩ := ih hr
      refine ⟨by simp; omega, by simpa using h2, ?_⟩
      intro j hj1 hj2
      cases j with
      | zero => omega
      | succ j0 =>
        rw [List.getD_cons_succ]
        exact h3 j0 (by omega) (by simp at hj2; omega)
    | none =>
      rw [hr] at h
      have hb : b = 32 := by
        by_contra hb
        rw [if_neg hb] at h
        simp at h
      rw [if_pos hb] at h
      simp at h
      subst h
      refine ⟨by simp, by simpa using hb, ?_⟩
      intro j hj1 hj2
      cases j with
      | zero => omega
      | succ j0 =>
        rw [List.getD_cons_succ]
        exact lastSpaceIdx_none hr j0 (by simp at hj2; omega)

theorem lastSpaceIdx_getD_le (l : List Nat) :
    (lastSpaceIdx l).getD 0 ≤ l.length := by
  cases h : lastSpaceIdx l with
  | none => simp
  | some i => simpa using (lastSpaceIdx_some h).1.le

theorem advanceLoop_le (fuel : Nat) (bytes : List Nat) :
    ∀ p, p ≤ bytes.length → advanceLoop fuel bytes p ≤ bytes.length := by
  induction fuel with
  | zero => intro p hp; simpa [advanceLoop] using hp
  | succ n ih =>
    intro p hp
    rw [advanceLoop]
    split
    · split
      · omega
      · exact ih (p + 1) (by omega)
    · exact hp

theorem getD_concat_length {α : Type} (l : List α) (a d : α) :
    (l ++ [a]).getD l.length d = a := by
  simp [List.getD, List.getElem?_concat_length]

theorem findEsc_mem {pos ch : Nat} {k : Key} (h : findEsc pos ch = some k) :
    k ∈ ESC_SEQ_LIST.map Prod.fst := by
  unfold findEsc at h
  cases hf : ESC_SEQ_LIST.find? fun e =>
      decide (pos ≠ e.2.length) && (e.2[pos]? == some ch) &&
        decide (e.2.length - 1 = pos) with
  | none => rw [hf] at h; simp at h
  | some e =>
    rw [hf] at h
    simp at h
    subst h
    exact List.mem_map_of_mem Prod.fst (List.mem_of_find?_eq_some hf)

theorem escLoop_sound (fuel : Nat) :
    ∀ (pos : Nat) (s : List Nat) (k : Key) (r : List Nat),
      escLoop fuel pos s = some (k, r) →
      (k = .NA ∨ k ∈ ESC_SEQ_LIST.map Prod.fst) ∧
        ∃ n, n ≤ fuel ∧ r = s.drop n := by
  induction fuel with
  | zero =>
    intro pos s k r h
    rw [escLoop] at h
    simp at h
    exact ⟨Or.inl h.1.symm, 0, Nat.le_refl 0, h.2.symm⟩
  | succ n ih =>
    intro pos s k r h
    cases s with
    | nil => rw [escLoop] at h; simp at h
    | cons ch rest =>
      rw [escLoop] at h
      cases hf : findEsc pos ch with
      | some key =>
        rw [hf] at h
        simp at h
        obtain ⟨hk, hr⟩ := h
        subst hk
        subst hr
        exact ⟨Or.inr (findEsc_mem hf), 1, by omega, by simp⟩
      | none =>
        rw [hf] at h
        obtain ⟨hks, m, hm, hr⟩ := ih (pos + 1) rest k r h
        exact ⟨hks, m + 1, by omega, by simpa using hr⟩

/-! ## Claim theorems: the Unix decoder -/

/-- C8: for every byte stream, the Unix `read_key` never returns `ArrowUp`,
`ArrowDown`, or `CtrlBackspace`: the escape table holds only right/left
arrows and their Ctrl variants, and the direct byte map covers only Enter,
Backspace and character-insert, so history navigation and word deletion are
unreachable from the Unix key source. -/
theorem read_key_no_history_keys (s : List Nat) (k : Key) (r : List Nat)
    (h : read_key s = some (k, r)) :
    k ≠ .ArrowUp ∧ k ≠ .ArrowDown ∧ k ≠ .CtrlBackspace := by
  cases s with
  | nil => rw [read_key] at h; simp at h
  | cons ch rest =>
    rw [read_key] at h
    by_cases h27 : ch = 27
    · rw [if_pos h27] at h
      rcases (escLoop_sound _ _ _ _ _ h).1 with rfl | hmem
      · simp
      · simp [ESC_SEQ_LIST] at hmem
        rcases hmem with rfl | rfl | rfl | rfl <;> simp
    · rw [if_neg h27] at h
      by_cases h10 : ch = 10
      · rw [if_pos h10] at h
        simp at h
        obtain ⟨rfl, -⟩ := h
        simp
      · rw [if_neg h10] at h
        by_cases h127 : ch = 127
        · rw [if_pos h127] at h
          simp at h
          obtain ⟨rfl, -⟩ := h
          simp
        · rw [if_neg h127] at h
          simp at h
          obtain ⟨rfl, -⟩ := h
          simp

/-- Witness for `read_key_no_history_keys` at the one-byte stream `[10]`. -/
theorem read_key_no_history_keys_witness :
    Key.Enter ≠ Key.ArrowUp ∧ Key.Enter ≠ Key.ArrowDown ∧
      Key.Enter ≠ Key.CtrlBackspace :=
  read_key_no_history_keys [10] .Enter [] (by decide)

/-- C4 counterexample: after the escape byte the decoder reads only
`ESC_SEQ_LEN + 1 = 5` bytes, not 6: on the escape byte followed by six bytes
120 it returns the no-op key with the sixth byte still unconsumed, so the
claimed 6-read budget is never exercised. -/
theorem read_key_escape_budget_counterexample :
    read_key [27, 120, 120, 120, 120, 120, 120] = some (.NA, [120]) ∧
      ([120] : List Nat) ≠ [] := by decide

/-- C4 amended: after the escape byte the decoder reads at most
`ESC_SEQ_LEN + 1 = 5` further bytes (the table length plus one, not the
longest-entry length plus one); whatever it returns is never a
character-insert, so consumed bytes are discarded, and the unconsumed rest of
the stream is a suffix obtained by dropping at most 5 bytes. -/
theorem read_key_escape_bounded (s : List Nat) (k : Key) (r : List Nat)
    (h : read_key (27 :: s) = some (k, r)) :
    (∀ c, k ≠ .Char c) ∧ ∃ n, n ≤ ESC_SEQ_LEN + 1 ∧ r = s.drop n := by
  have h' : escLoop (ESC_SEQ_LEN + 1) 0 s = some (k, r) := by
    rw [read_key] at h
    simpa using h
  obtain ⟨hk, n, hn, hr⟩ := escLoop_sound _ _ _ _ _ h'
  refine ⟨?_, n, hn, hr⟩
  intro c
  rcases hk with rfl | hmem
  · simp
  · simp [ESC_SEQ_LIST] at hmem
    rcases hmem with rfl | rfl | rfl | rfl <;> simp

/-- Witness for `read_key_escape_bounded`: the stream escape, 91, 67
decodes to `ArrowRight` with everything consumed. -/
theorem read_key_escape_bounded_witness :
    (∀ c, Key.ArrowRight ≠ Key.Char c) ∧
      ∃ n, n ≤ ESC_SEQ_LEN + 1 ∧ ([] : List Nat) = [91, 67].drop n :=
  read_key_escape_bounded [91, 67] .ArrowRight [] (by decide)

/-- C5 counterexample: the control byte 1 (below 32 and not Enter) is
returned as a character-insert by the Unix decoder, not as a
backspace/delete variant. -/
theorem read_key_threshold_counterexample :
    read_key [1] = some (.Char 1, []) ∧ (1 : Nat) < 32 ∧ (1 : Nat) ≠ 10 := by
  decide

/-- C5 amended: the Unix decoder has no printable threshold: every single
byte other than 27 (escape), 10 (Enter) and 127 (Backspace) — control bytes
below 32 included — maps to a character-insert carrying that byte. -/
theorem read_key_single_byte_map (b : Nat) (hb : b ≠ 27) :
    read_key [b] =
      some ((if b = 10 then .Enter else if b = 127 then .Backspace
             else .Char b), []) := by
  rw [read_key, if_neg hb]
  by_cases h10 : b = 10
  · simp [h10]
  · by_cases h127 : b = 127
    · simp [h127, h10]
    · simp [h10, h127]

/-- Witness for `read_key_single_byte_map` at byte 65. -/
theorem read_key_single_byte_map_witness :
    read_key [65] = some (.Char 65, []) :=
  read_key_single_byte_map 65 (by decide)

/-! ## Claim theorems: the `readch` editor -/

/-- C10: move-left then move-right (with no other mutation between) returns
buffer and cursor to the pre-move state, for every interior cursor
position. -/
theorem moveLeft_moveRight_roundtrip (buf : List Nat) (pos : Nat)
    (h1 : 0 < pos) (h2 : pos < buf.length) :
    (readch buf pos .ArrowLeft).bind (fun s => readch s.1 s.2 .ArrowRight) =
      some (buf, pos) := by
  have h3 : pos - 1 < buf.length := by omega
  simp [readch, h3]
  omega

/-- Witness for `moveLeft_moveRight_roundtrip` on buffer 97, 98 at cursor 1. -/
theorem moveLeft_moveRight_roundtrip_witness :
    (readch [97, 98] 1 .ArrowLeft).bind (fun s => readch s.1 s.2 .ArrowRight) =
      some ([97, 98], 1) :=
  moveLeft_moveRight_roundtrip [97, 98] 1 (by decide) (by decide)

/-- C1 counterexample: on the bytes of the string hello world
(104, 101, 108, 108, 111, 32, 119, 111, 114, 108, 100) with cursor 11,
delete-word-backward produces the bytes of hello with cursor 5 — the space
is deleted too — not the claimed bytes of hello-space with cursor 6. -/
theorem deleteWordBackward_counterexample :
    readch [104, 101, 108, 108, 111, 32, 119, 111, 114, 108, 100] 11
        .CtrlBackspace = some ([104, 101, 108, 108, 111], 5) ∧
     readch [104, 101, 108, 108, 111, 32, 119, 111, 114, 108, 100] 11
        .CtrlBackspace ≠ some ([104, 101, 108, 108, 111, 32], 6) := by
  decide

/-- C1 amended: delete-word-backward at a char-boundary cursor `p` removes
the byte range from `i` to `p` and leaves the cursor at `i`, where `i` is the
index of the nearest space preceding the cursor (0 when there is none): the
removed range is the maximal space-free suffix of the prefix before the
cursor TOGETHER WITH the delimiting space itself when one exists.  On buffer
hello world with cursor 11 this yields hello with cursor 5. -/
theorem deleteWordBackward_removes_through_space (b : List Nat) (p : Nat)
    (hp : isCharBoundary b p = true) (h0 : isCharBoundary b 0 = true) :
    ∃ i, readch b p .CtrlBackspace = some (b.take i ++ b.drop p, i) ∧
      i ≤ p ∧
      ((∀ j, j < p → b.getD j 0 ≠ 32) ∧ i = 0 ∨
        (b.getD i 0 = 32 ∧ i < p ∧
          ∀ j, i < j → j < p → b.getD j 0 ≠ 32)) := by
  have hple : p ≤ b.length := isCharBoundary_le hp
  have hlen : (b.take p).length = p := by
    rw [List.length_take]
    omega
  cases hs : lastSpaceIdx (b.take p) with
  | none =>
    refine ⟨0, ?_, Nat.zero_le _, Or.inl ⟨?_, rfl⟩⟩
    · simp [readch, hp, hs, replaceRangeEmpty, h0]
    · intro j hj
      have := lastSpaceIdx_none hs j (by rw [hlen]; exact hj)
      rwa [getD_take hj] at this
  | some i =>
    obtain ⟨hi1, hi2, hi3⟩ := lastSpaceIdx_some hs
    rw [hlen] at hi1
    have hgd : b.getD i 0 = 32 := by
      rw [← getD_take hi1]
      exact hi2
    have hbi : isCharBoundary b i = true := by
      have hil : i < b.length := by omega
      have hgE : b[i] = 32 := by
        rw [← List.getD_eq_getElem b 0 hil]
        exact hgd
      simp [isCharBoundary, hil, isContByte, hgE]
    refine ⟨i, ?_, hi1.le, Or.inr ⟨hgd, hi1, ?_⟩⟩
    · simp [readch, hp, hs, replaceRangeEmpty, hbi, hi1.le]
    · intro j hj1 hj2
      have := hi3 j hj1 (by rw [hlen]; exact hj2)
      rwa [getD_take hj2] at this

/-- Witness for `deleteWordBackward_removes_through_space` on the bytes of
hello world at cursor 11. -/
theorem deleteWordBackward_removes_through_space_witness :
    ∃ i, readch [104, 101, 108, 108, 111, 32, 119, 111, 114, 108, 100] 11
        .CtrlBackspace =
        some ([104, 101, 108, 108, 111, 32, 119, 111, 114, 108, 100].take i ++
          [104, 101, 108, 108, 111, 32, 119, 111, 114, 108, 100].drop 11, i) ∧
      i ≤ 11 ∧
      ((∀ j, j < 11 →
          [104, 101, 108, 108, 111, 32, 119, 111, 114, 108, 100].getD j 0 ≠ 32) ∧
          i = 0 ∨
        ([104, 101, 108, 108, 111, 32, 119, 111, 114, 108, 100].getD i 0 = 32 ∧
          i < 11 ∧
          ∀ j, i < j → j < 11 →
            [104, 101, 108, 108, 111, 32, 119, 111, 114, 108, 100].getD j 0 ≠ 32)) :=
  deleteWordBackward_removes_through_space
    [104, 101, 108, 108, 111, 32, 119, 111, 114, 108, 100] 11
    (by decide) (by decide)

theorem allAscii_take {l : List Nat} (ha : allAscii l = true) (n : Nat) :
    allAscii (l.take n) = true := by
  rw [allAscii_iff] at ha ⊢
  intro b hb
  exact ha b (List.take_subset n l hb)

theorem allAscii_drop {l : List Nat} (ha : allAscii l = true) (n : Nat) :
    allAscii (l.drop n) = true := by
  rw [allAscii_iff] at ha ⊢
  intro b hb
  exact ha b (List.drop_subset n l hb)

theorem allAscii_append {l1 l2 : List Nat} (h1 : allAscii l1 = true)
    (h2 : allAscii l2 = true) : allAscii (l1 ++ l2) = true := by
  rw [allAscii_iff] at h1 h2 ⊢
  intro b hb
  rcases List.mem_append.mp hb with h | h
  · exact h1 b h
  · exact h2 b h

/-- C3 counterexample: the decoder can produce `Char 195` (byte 195 alone),
whose UTF-8 encoding is the two bytes 195, 131; inserting it into the empty
buffer (cursor 0, a valid split point) advances the cursor by one byte only,
leaving it at offset 1 — inside the freshly inserted two-byte unit, not a
valid split point. -/
theorem cursor_boundary_counterexample :
    read_key [195] = some (.Char 195, []) ∧
      isCharBoundary [] 0 = true ∧
      readch [] 0 (.Char 195) = some ([195, 131], 1) ∧
      isCharBoundary [195, 131] 1 = false := by decide

/-- C3 amended: on buffers made only of single-byte (ASCII, below 128)
units and for keys whose inserted character (if any) is single-byte, every
editing operation of `readch` succeeds (no panic) and yields a buffer that is
again all single-byte with the cursor at a valid split point.  For `Char`
values with multi-byte UTF-8 encodings the invariant fails (see the
counterexample). -/
theorem readch_ascii_preserves_boundary (buf : List Nat) (pos : Nat) (k : Key)
    (ha : allAscii buf = true) (hp : pos ≤ buf.length)
    (hk : keyAscii k = true) :
    ∃ b q, readch buf pos k = some (b, q) ∧ allAscii b = true ∧
      isCharBoundary b q = true := by
  have hbnd : isCharBoundary buf pos = true := ascii_isCharBoundary ha hp
  cases k with
  | NA => exact ⟨buf, pos, rfl, ha, hbnd⟩
  | Enter => exact ⟨buf, pos, rfl, ha, hbnd⟩
  | ArrowUp => exact ⟨buf, pos, rfl, ha, hbnd⟩
  | ArrowDown => exact ⟨buf, pos, rfl, ha, hbnd⟩
  | Char c =>
    have hc : c < 128 := by simpa [keyAscii] using hk
    have henc : utf8Encode c = [c] := by simp [utf8Encode, hc]
    have hb : allAscii (buf.take pos ++ [c] ++ buf.drop pos) = true := by
      refine allAscii_append (allAscii_append (allAscii_take ha pos) ?_)
        (allAscii_drop ha pos)
      rw [allAscii_iff]
      intro x hx
      simp at hx
      omega
    refine ⟨buf.take pos ++ [c] ++ buf.drop pos, pos + 1, ?_, hb, ?_⟩
    · simp [readch, stringInsert, hbnd, henc]
    · refine ascii_isCharBoundary hb ?_
      simp [List.length_append, List.length_take, List.length_drop]
      omega
  | Backspace =>
    by_cases h0 : 0 < pos
    · have hlt : pos - 1 < buf.length := by omega
      have hmem : buf.getD (pos - 1) 0 ∈ buf := by
        rw [List.getD_eq_getElem _ _ hlt]
        exact List.getElem_mem hlt
      have hby : buf.getD (pos - 1) 0 < 128 := allAscii_iff.mp ha _ hmem
      have hlead : utf8LenOfLead (buf.getD (pos - 1) 0) = 1 := by
        rw [utf8LenOfLead, if_pos hby]
      have hleadE : utf8LenOfLead buf[pos - 1] = 1 := by
        rw [← List.getD_eq_getElem buf 0 hlt]
        exact hlead
      have hplus : pos - 1 + 1 = pos := by omega
      have hb : allAscii (buf.take (pos - 1) ++ buf.drop pos) = true :=
        allAscii_append (allAscii_take ha (pos - 1)) (allAscii_drop ha pos)
      refine ⟨buf.take (pos - 1) ++ buf.drop pos, pos - 1, ?_, hb, ?_⟩
      · simp [readch, h0, stringRemove, ascii_isCharBoundary ha hlt.le, hlt,
          hlead, hleadE, hplus]
      · refine ascii_isCharBoundary hb ?_
        simp [List.length_append, List.length_take, List.length_drop]
        omega
    · refine ⟨buf, pos, ?_, ha, hbnd⟩
      simp [readch, h0]
  | ArrowLeft =>
    exact ⟨buf, pos - 1, by simp [readch], ha,
      ascii_isCharBoundary ha (by omega)⟩
  | ArrowRight =>
    refine ⟨buf, if pos < buf.length then pos + 1 else pos, rfl, ha, ?_⟩
    by_cases hlt : pos < buf.length
    · simp only [if_pos hlt]
      exact ascii_isCharBoundary ha (by omega)
    · simp only [if_neg hlt]
      exact hbnd
  | CtrlBackspace =>
    have hidx : (lastSpaceIdx (buf.take pos)).getD 0 ≤ pos := by
      have := lastSpaceIdx_getD_le (buf.take pos)
      rw [List.length_take] at this
      omega
    have hb : allAscii
        (buf.take ((lastSpaceIdx (buf.take pos)).getD 0) ++ buf.drop pos) =
        true :=
      allAscii_append (allAscii_take ha _) (allAscii_drop ha pos)
    refine ⟨buf.take ((lastSpaceIdx (buf.take pos)).getD 0) ++ buf.drop pos,
      (lastSpaceIdx (buf.take pos)).getD 0, ?_, hb, ?_⟩
    · simp [readch, hbnd, replaceRangeEmpty,
        ascii_isCharBoundary ha (le_trans hidx hp), hidx]
    · refine ascii_isCharBoundary hb ?_
      simp [List.length_append, List.length_take, List.length_drop]
      omega
  | CtrlArrowLeft =>
    have hidx : (lastSpaceIdx (buf.take pos)).getD 0 ≤ pos := by
      have := lastSpaceIdx_getD_le (buf.take pos)
      rw [List.length_take] at this
      omega
    refine ⟨buf, (lastSpaceIdx (buf.take pos)).getD 0, ?_, ha,
      ascii_isCharBoundary ha (le_trans hidx hp)⟩
    simp [readch, hbnd]
  | CtrlArrowRight =>
    exact ⟨buf, advanceWordRight buf pos, rfl, ha,
      ascii_isCharBoundary ha (advanceLoop_le buf.length buf pos hp)⟩

/-- Witness for `readch_ascii_preserves_boundary`: inserting byte 98 into
the ASCII buffer 32, 97 at cursor 2. -/
theorem readch_ascii_preserves_boundary_witness :
    ∃ b q, readch [32, 97] 2 (.Char 98) = some (b, q) ∧ allAscii b = true ∧
      isCharBoundary b q = true :=
  readch_ascii_preserves_boundary [32, 97] 2 (.Char 98) (by decide)
    (by decide) (by decide)

/-! ## Claim theorems: the `pushln` history loop -/

theorem wrapSub_self (a : Nat) : wrapSub a a = 0 := by
  simp [wrapSub, USIZE]

theorem wrapSub_pred {a : Nat} (h0 : 0 < a) (hU : a < USIZE) :
    wrapSub (a - 1) a = USIZE - 1 := by
  rw [wrapSub, USIZE] at *
  omega

/-- After every buffer re-selection the cursor sits at the end of the newly
active buffer (line 113 of src/lib.rs). -/
theorem rederive_pos (h : List (List Nat)) (st : PushSt) (hp : Nat)
    (s : PushSt) (hr : rederive h st hp = some s) :
    s.pos = (getBuf s).length := by
  simp only [rederive] at hr
  split at hr
  · simp at hr
    subst hr
    simp [getBuf]
  · split at hr
    · split at hr
      · simp at hr
        subst hr
        rename_i item hitem hloc
        simp [getBuf, hloc, getD_concat_length]
      · simp at hr
    · simp at hr
      subst hr
      simp [getBuf]

/-- C9: after every history-up or history-down key the `pushln` loop sets the
cursor to the length of the then-active buffer — also when the navigation is
a no-op on the buffer contents (down in the Fresh state, up with empty
history). -/
theorem stepKey_nav_sets_pos_to_len (h : List (List Nat)) (st : PushSt)
    (k : Key) (s : PushSt) (br : Bool) (hk : k = .ArrowUp ∨ k = .ArrowDown)
    (hs : stepKey h st k = some (s, br)) :
    br = false ∧ s.pos = (getBuf s).length := by
  have key : ∀ (o : Option PushSt),
      o.map (fun x => (x, false)) = some (s, br) →
      o = some s ∧ br = false := by
    intro o ho
    cases o with
    | none => simp at ho
    | some x =>
      simp at ho
      obtain ⟨rfl, rfl⟩ := ho
      exact ⟨rfl, rfl⟩
  rcases hk with rfl | rfl
  · simp only [stepKey, readch] at hs
    obtain ⟨ho, rfl⟩ := key _ hs
    exact ⟨rfl, rederive_pos _ _ _ _ ho⟩
  · simp only [stepKey, readch] at hs
    obtain ⟨ho, rfl⟩ := key _ hs
    exact ⟨rfl, rederive_pos _ _ _ _ ho⟩

/-- Witness for `stepKey_nav_sets_pos_to_len`: history-up in the initial
state with empty history. -/
theorem stepKey_nav_sets_pos_to_len_witness :
    false = false ∧ (⟨[], [], 0, 0, .newB⟩ : PushSt).pos =
      (getBuf ⟨[], [], 0, 0, .newB⟩).length :=
  stepKey_nav_sets_pos_to_len [] (initSt []) .ArrowUp ⟨[], [], 0, 0, .newB⟩
    false (Or.inl rfl) (by decide)

/-- C2: during one `pushln` call the stored history is only ever read
(navigation edits the private `local_history` shadow copies and `new_buf`);
whatever key sequence drives the loop, a submit with a non-empty active
buffer returns the history with its pre-existing entries and order intact
and exactly one new entry — the active buffer's contents — appended at the
end, even when that entry is textually identical to a recalled one. -/
theorem pushln_appends_one_entry (h : List (List Nat)) (keys : List Key)
    (st : PushSt) (hloop : pushlnLoop h (initSt h) keys = some st)
    (hne : getBuf st ≠ []) :
    pushln h keys = some (h ++ [getBuf st], getBuf st) := by
  simp [pushln, hloop, hne]

/-- Witness for `pushln_appends_one_entry`: history alpha, beta; recall
alpha (two ups), append the byte 88 (X), submit: the history becomes alpha,
beta, alphaX — the stored alpha entry is unchanged. -/
theorem pushln_appends_one_entry_witness :
    pushln [[97, 108, 112, 104, 97], [98, 101, 116, 97]]
        [.ArrowUp, .ArrowUp, .Char 88, .Enter] =
      some ([[97, 108, 112, 104, 97], [98, 101, 116, 97],
             [97, 108, 112, 104, 97, 88]], [97, 108, 112, 104, 97, 88]) :=
  pushln_appends_one_entry [[97, 108, 112, 104, 97], [98, 101, 116, 97]]
    [.ArrowUp, .ArrowUp, .Char 88, .Enter]
    ⟨[], [[98, 101, 116, 97], [97, 108, 112, 104, 97, 88]], 6, 0, .localB 1⟩
    (by decide) (by decide)

/-- C6: when the loop breaks on Enter with an empty active buffer, `pushln`
returns the distinguished empty result and the history completely
unchanged — no entry is appended. -/
theorem pushln_empty_submit (h : List (List Nat)) (keys : List Key)
    (st : PushSt) (hloop : pushlnLoop h (initSt h) keys = some st)
    (he : getBuf st = []) :
    pushln h keys = some (h, []) := by
  simp [pushln, hloop, he]

/-- Witness for `pushln_empty_submit`: history holding the byte string x,
nothing typed, Enter. -/
theorem pushln_empty_submit_witness :
    pushln [[120]] [.Enter] = some ([[120]], []) :=
  pushln_empty_submit [[120]] [.Enter] (initSt [[120]]) (by decide) (by decide)

/-- C7 counterexample: the state with fresh buffer 97, 98 and cursor 0 is
reachable (type both bytes, then move left twice); pressing history-down
there — the Fresh state — leaves the buffer contents alone but moves the
cursor from 0 to 2, so the key is not a complete no-op on the
buffer-and-cursor pair. -/
theorem down_in_fresh_counterexample :
    pushlnLoop [] (initSt [])
        [.Char 97, .Char 98, .ArrowLeft, .ArrowLeft, .Enter] =
      some ⟨[97, 98], [], 0, 0, .newB⟩ ∧
    stepKey [] ⟨[97, 98], [], 0, 0, .newB⟩ .ArrowDown =
      some (⟨[97, 98], [], 2, 0, .newB⟩, false) ∧
    (⟨[97, 98], [], 2, 0, .newB⟩ : PushSt).pos ≠
      (⟨[97, 98], [], 0, 0, .newB⟩ : PushSt).pos := by decide

/-- C7 amended: history-down in the Fresh state (recall cursor at
`history.len()`) leaves the recall cursor, the fresh buffer's contents and
the shadow copies unchanged and accesses no out-of-range index (no panic),
but it does set the cursor to the length of the fresh buffer. -/
theorem stepKey_down_fresh (h : List (List Nat)) (st : PushSt)
    (hfresh : st.active = .newB) (hh : st.hpos = h.length)
    (hlocal : st.localHistory.length ≤ h.length) (hU : h.length < USIZE) :
    stepKey h st .ArrowDown = some ({ st with pos := st.newBuf.length }, false) := by
  obtain ⟨nb, lh, p, hp, act⟩ := st
  simp only at hfresh hh hlocal
  subst hfresh
  subst hh
  simp only [stepKey, readch, getBuf, writeActive]
  rw [rederive]
  rw [if_neg (by omega : ¬ h.length < h.length)]
  have hnone : h[h.length]? = none := List.getElem?_eq_none (Nat.le_refl _)
  rcases Nat.eq_zero_or_pos h.length with h0 | h0
  · rw [h0] at hlocal hnone ⊢
    have hlh : lh.length = 0 := by omega
    rw [if_neg (by rw [wrapSub_self]; dsimp only; omega)]
    simp [hnone]
  · have hw : wrapSub (h.length - 1) h.length = USIZE - 1 :=
      wrapSub_pred h0 hU
    rw [if_neg (by rw [hw]; dsimp only; rw [USIZE] at hU ⊢; omega)]
    simp [hnone]

/-- Witness for `stepKey_down_fresh`: Fresh state over history x with a
one-byte fresh buffer and the cursor at 0. -/
theorem stepKey_down_fresh_witness :
    stepKey [[120]] ⟨[97], [], 0, 1, .newB⟩ .ArrowDown =
      some (⟨[97], [], 1, 1, .newB⟩, false) :=
  stepKey_down_fresh [[120]] ⟨[97], [], 0, 1, .newB⟩ rfl rfl (by decide)
    (by decide)

end Readln
